import Mathlib

/-!
Verification of the chord-chart converter (src/convert_chords_interactive.py).

The development shallow-embeds the pure core of the program:
token classification (CHORD_TOKEN_RE, PAREN_ANNOTATION_RE, BAR_SEPARATOR_RE),
the chord-only line classifier, the column merge engine, the standalone
chord formatter, and the line-walking pass controller.

Modelling conventions:
* Python strings are Lean `String`s (a `List Char` underneath); machine-level
  details (UTF-8 byte layout) are irrelevant to the program, which only works
  with character sequences.
* Python `str.strip()`, `str.split()`, `str.isspace()` and the regex class
  `\s` are modelled over the ASCII whitespace characters
  (space, tab, newline, vertical tab, form feed, carriage return), the set
  relevant to plain-text chord charts.
* `re.IGNORECASE` is modelled by ASCII-lowercasing the subject characters
  (`toLowerN`) and matching against lowercase pattern atoms.
* The regexes have no unbounded backtracking: every greedy choice in them is
  forced (justified by comments at the corresponding definitions), so each is
  translated to a total recursive Boolean matcher whose success coincides
  with the existence of a regex match.
-/

namespace ChordConv

/-- ASCII lowercasing on character codes: uppercase `A`..`Z` (65..90) map to
97..122, everything else is unchanged.  This models the case folding performed
by `re.IGNORECASE` on the ASCII letters the patterns contain. -/
def toLowerN (c : Char) : Nat :=
  if 65 ≤ c.toNat ∧ c.toNat ≤ 90 then c.toNat + 32 else c.toNat

/-- The ASCII whitespace characters: the set recognised by Python's
`str.strip()` / `str.split()` / `str.isspace()` and by the regex class `\s`
on ASCII input. -/
def isSpaceChar (c : Char) : Bool :=
  c == ' ' || c == '\t' || c == '\n' || c == '\x0b' || c == '\x0c' || c == '\r'

/-- Python `token.strip()`: remove leading and trailing whitespace. -/
def stripL (l : List Char) : List Char :=
  ((l.dropWhile isSpaceChar).reverse.dropWhile isSpaceChar).reverse

/-- Python `s.strip()` on strings. -/
def pyStrip (s : String) : String :=
  String.mk (stripL s.data)

/-- The class `[A-G]` with `re.IGNORECASE`, after lowercasing: codes of `a`..`g`. -/
def isNoteN (k : Nat) : Bool :=
  'a'.toNat ≤ k && k ≤ 'g'.toNat

/-- The group `(?:#|b)` with `re.IGNORECASE`, after lowercasing: `#` or `b`. -/
def isAccN (k : Nat) : Bool :=
  k == '#'.toNat || k == 'b'.toNat

/-- The class `\d`: a decimal digit. -/
def isDigitN (k : Nat) : Bool :=
  '0'.toNat ≤ k && k ≤ '9'.toNat

/-- The tail `(?:#|b)?$` of the slash-bass group: end of input, or a single
accidental character. -/
def accEndN : List Nat → Bool
  | [] => true
  | [a] => isAccN a
  | _ => false

/-- The suffix `(?:/[A-G](?:#|b)?)?$` of CHORD_TOKEN_RE: either the end of the
token, or a slash, a root letter, and an optional accidental ending the token. -/
def tailSlashN : List Nat → Bool
  | [] => true
  | k :: c :: rest => k == '/'.toNat && isNoteN c && accEndN rest
  | _ => false

/-- The quality keywords `maj|min|m|dim|aug|sus|add` of CHORD_TOKEN_RE,
as lowercased code sequences. -/
def qualityAltsN : List (List Nat) :=
  ["maj", "min", "m", "dim", "aug", "sus", "add"].map (fun s => s.data.map toLowerN)

/-- Strip a literal pattern prefix from the (lowercased) subject. -/
def stripPrefixN : List Nat → List Nat → Option (List Nat)
  | [], cs => some cs
  | _ :: _, [] => none
  | p :: ps, c :: cs => if c == p then stripPrefixN ps cs else none

/-- The regex tail `\d*(?:/[A-G](?:#|b)?)?$` after a quality keyword.
The greedy `\d*` is forced: stopping early leaves a digit as the next
character, which can neither start the slash group nor be the end. -/
def afterQualN (cs : List Nat) : Bool :=
  tailSlashN (cs.dropWhile isDigitN)

/-- The regex tail after root and optional accidental:
`(?:(?:maj|min|m|dim|aug|sus|add)\d*)?(?:/[A-G](?:#|b)?)?$`.
The alternation over quality keywords (including taking none) is an
existential over the alternatives, matching regex backtracking. -/
def afterRootN (cs : List Nat) : Bool :=
  tailSlashN cs ||
    qualityAltsN.any (fun q =>
      match stripPrefixN q cs with
      | some r => afterQualN r
      | none => false)

/-- Full-token matcher for CHORD_TOKEN_RE
`^[A-G](?:#|b)?(?:(?:maj|min|m|dim|aug|sus|add)\d*)?(?:/[A-G](?:#|b)?)?$`
(with `re.IGNORECASE`), on the lowercased character codes of the token.
The optional accidental is an explicit two-way alternative. -/
def chordMatchN : List Nat → Bool
  | [] => false
  | c :: rest =>
    isNoteN c &&
      (afterRootN rest ||
        (match rest with
         | a :: r2 => isAccN a && afterRootN r2
         | [] => false))

/-- Function `is_chord_token` from the source, on the character list: an empty token is
rejected (`if not token`), otherwise the stripped token is matched in full
against CHORD_TOKEN_RE. -/
def is_chord_tokenL (t : List Char) : Bool :=
  if t.isEmpty then false else chordMatchN ((stripL t).map toLowerN)

/-- Function `is_chord_token(token)` from the source. -/
def is_chord_token (token : String) : Bool :=
  is_chord_tokenL token.data

/-- Matcher for the part of PAREN_ANNOTATION_RE `^\(.*\)$` after the opening
parenthesis: all characters up to a final `)` (and `.` does not match a
newline). -/
def annTailL : List Char → Bool
  | [] => false
  | [c] => c == ')'
  | c :: rest@(_ :: _) => c != '\n' && annTailL rest

/-- Full-token matcher for PAREN_ANNOTATION_RE `^\(.*\)$`: an opening
parenthesis followed by a matching tail. -/
def parenMatchL : List Char → Bool
  | [] => false
  | c :: rest => c == '(' && annTailL rest

/-- Function `is_parenthetical_annotation` from the source (the Lean name is shortened):
the stripped token is fully wrapped in one pair of parentheses. -/
def is_paren_annotL (t : List Char) : Bool :=
  parenMatchL (stripL t)

/-- Function `is_parenthetical_annotation(token)` from the source, on strings. -/
def is_parenthetical_annot (token : String) : Bool :=
  is_paren_annotL token.data

/-- Function `is_bar_separator` from the source: BAR_SEPARATOR_RE `^\|+$` on the
stripped token: non-empty and consisting of `|` characters only. -/
def is_bar_separatorL (t : List Char) : Bool :=
  !(stripL t).isEmpty && (stripL t).all (· == '|')

/-- Function `is_bar_separator(token)` from the source, on strings. -/
def is_bar_separator (token : String) : Bool :=
  is_bar_separatorL token.data

/-- Fuel-driven scan behind `tokensFrom`; the fuel only forces structural
termination and never runs out when it starts at the list length
(`tokensFrom_eq` recovers the natural recurrence). -/
def tokensFromAux : Nat → List Char → Nat → List (Nat × List Char)
  | 0, _, _ => []
  | fuel + 1, cs, i =>
    match cs with
    | [] => []
    | c :: rest =>
      if isSpaceChar c then
        tokensFromAux fuel rest (i + 1)
      else
        (i, c :: rest.takeWhile (fun x => !isSpaceChar x)) ::
          tokensFromAux fuel (rest.dropWhile (fun x => !isSpaceChar x))
            (i + 1 + (rest.takeWhile (fun x => !isSpaceChar x)).length)

/-- The tokens of `re.finditer(r"\S+", line)` with their 0-based start
offsets: scan the characters, skipping whitespace, and emit each maximal
non-whitespace run together with the index of its first character. -/
def tokensFrom (cs : List Char) (i : Nat) : List (Nat × List Char) :=
  tokensFromAux cs.length cs i

/-- Python `line.split()`: the whitespace-separated tokens, without offsets. -/
def splitPy (cs : List Char) : List (List Char) :=
  (tokensFrom cs 0).map Prod.snd

/-- Function `is_chord_only_line(line)` from the source: at least one token, and every
token is a chord, an annotation, or a bar separator.  The comprehension's
`if tok != ""` filter is kept. -/
def is_chord_only_line (line : String) : Bool :=
  !((splitPy line.data).filter (fun t => !t.isEmpty)).isEmpty &&
    ((splitPy line.data).filter (fun t => !t.isEmpty)).all
      (fun tok => is_chord_tokenL tok || is_paren_annotL tok || is_bar_separatorL tok)

/-- The bracketed form `f"[{chord}]"` of a chord token. -/
def bracketChars (t : List Char) : List Char :=
  '[' :: t ++ [']']

/-- The `chord_positions` list built by `merge_chords_and_lyrics`: the
`\S+` tokens of the chord line, with start offsets, filtered by
`is_chord_token`. -/
def chord_positions (chord_line : String) : List (Nat × List Char) :=
  (tokensFrom chord_line.data 0).filter (fun pc => is_chord_tokenL pc.2)

/-- One iteration of the insertion loop of `merge_chords_and_lyrics`: the
state is the current character list and the running offset.  The insertion
index `pos + offset` is clamped into `[0, len]`; positions and offsets are
naturals, so the source's `insert_at < 0` clamp is vacuous and the upper
clamp is `min`.  The slice assignment `lyric_chars[i:i] = list(bracketed)`
is `take i ++ bracketed ++ drop i`, and the offset grows by
`len(bracketed)`. -/
def mergeStep (acc : List Char × Nat) (pc : Nat × List Char) : List Char × Nat :=
  (acc.1.take (min (pc.1 + acc.2) acc.1.length) ++ bracketChars pc.2 ++
      acc.1.drop (min (pc.1 + acc.2) acc.1.length),
    acc.2 + (bracketChars pc.2).length)

/-- Function `merge_chords_and_lyrics(chord_line, lyric_line)` from the source:
fold the insertion loop over the recognised chord tokens, starting from the
lyric characters and offset 0, and re-join the characters. -/
def merge_chords_and_lyrics (chord_line lyric_line : String) : String :=
  String.mk ((chord_positions chord_line).foldl mergeStep (lyric_line.data, 0)).1

/-- Python `tok.isspace()`: non-empty and all whitespace. -/
def pyIsSpaceL (t : List Char) : Bool :=
  !t.isEmpty && t.all isSpaceChar

/-- The loop body of `format_chord_only_line`: whitespace runs are kept,
chord tokens are bracketed, annotations and bar separators are kept, and any
other token is kept by the fallback branch. -/
def transformRunL (tok : List Char) : List Char :=
  if pyIsSpaceL tok then tok
  else if is_chord_tokenL tok then bracketChars tok
  else if is_paren_annotL tok || is_bar_separatorL tok then tok
  else tok

/-- Fuel-driven scan behind `splitRunsL` (see `splitRunsL_eq`). -/
def splitRunsAux : Nat → List Char → List (List Char)
  | 0, _ => []
  | fuel + 1, cs =>
    match cs with
    | [] => []
    | c :: rest =>
      if isSpaceChar c then
        (c :: rest.takeWhile isSpaceChar) :: splitRunsAux fuel (rest.dropWhile isSpaceChar)
      else
        (c :: rest.takeWhile (fun x => !isSpaceChar x)) ::
          splitRunsAux fuel (rest.dropWhile (fun x => !isSpaceChar x))

/-- The runs of `re.finditer(r"\S+|\s+", line)`: the line cut into maximal
non-whitespace and whitespace runs, in order.  At each position the regex
takes the maximal run of the kind the next character starts. -/
def splitRunsL (cs : List Char) : List (List Char) :=
  splitRunsAux cs.length cs

/-- Function `format_chord_only_line(line)` from the source: transform each run and
join the parts. -/
def format_chord_only_line (line : String) : String :=
  String.mk ((splitRunsL line.data).map transformRunL).flatten

/-- The lookahead test `re.match(r"^\s*\[.*\]\s*$", next_line)` of
`process_lines`: optional leading whitespace, `[`, any characters other than
newline, `]`, optional trailing whitespace.  The greedy `\s*` and `.*` are
forced up to the unique decomposition: the leading whitespace run is maximal,
and the matched `]` is the last non-whitespace character (the characters
after it must all be whitespace). -/
def is_header_like (line : String) : Bool :=
  match line.data.dropWhile isSpaceChar with
  | '[' :: r =>
    match r.reverse.dropWhile isSpaceChar with
    | ']' :: mid => mid.all (· != '\n')
    | _ => false
  | _ => false

/-- Function `process_lines(lines)` from the source: the index-based loop becomes
structural recursion.  A non-chord-only current line passes through; a
chord-only line merges with the next line when that line strips to non-empty
text and is not a bracketed header, consuming it; otherwise the chord-only
line is formatted standalone. -/
def process_lines : List String → List String
  | [] => []
  | [cur] =>
    if is_chord_only_line cur then [format_chord_only_line cur] else [cur]
  | cur :: next :: rest2 =>
    if is_chord_only_line cur then
      if !(stripL next.data).isEmpty && !is_header_like next then
        merge_chords_and_lyrics cur next :: process_lines rest2
      else
        format_chord_only_line cur :: process_lines (next :: rest2)
    else
      cur :: process_lines (next :: rest2)

/-- The insertion loop of `merge_chords_and_lyrics` as a recursion over the
chord-position list (used to reason about the fold). -/
def mergeList : List (Nat × List Char) → List Char → Nat → List Char
  | [], l, _ => l
  | (p, c) :: ps, l, o =>
    mergeList ps
      (l.take (min (p + o) l.length) ++ bracketChars c ++ l.drop (min (p + o) l.length))
      (o + (bracketChars c).length)

/-- The merge algorithm as the specification states it: process the kept
tokens in left-to-right offset order; a token with text `t` and original
offset `p` is inserted as the literal substring `[t]` at index
`p + runningOffset` clamped into `[0, current length]`, after which the
running offset increases by `len(t) + 2`. -/
def mergeSpecGo : List (Nat × List Char) → List Char → Nat → List Char
  | [], lyric, _ => lyric
  | (p, t) :: rest, lyric, runningOffset =>
    mergeSpecGo rest
      (lyric.take (min (p + runningOffset) lyric.length) ++ ('[' :: t ++ [']']) ++
        lyric.drop (min (p + runningOffset) lyric.length))
      (runningOffset + (t.length + 2))

/-- The specification-side merge: collect the maximal non-whitespace tokens
of the chord line with their 0-based start offsets, keep those satisfying the
Chord predicate, and run the running-offset insertion loop from 0. -/
def mergeSpec (chordLine lyricLine : String) : String :=
  String.mk
    (mergeSpecGo ((tokensFrom chordLine.data 0).filter (fun pc => is_chord_tokenL pc.2))
      lyricLine.data 0)

/-- Direct form of the merge result: cut the remaining lyric at each chord's
clamped column (relative to the already-frozen prefix ending at column
`base`) and place the bracketed chord there. -/
def placeRel : Nat → List Char → List (Nat × List Char) → List Char
  | _, rem, [] => rem
  | base, rem, (p, c) :: ps =>
    rem.take (min (p - base) rem.length) ++ bracketChars c ++
      placeRel p (rem.drop (min (p - base) rem.length)) ps

/-- Interleave lyric segments with inserted blocks:
`interleave [s0, s1, ...] [b0, b1, ...] = s0 ++ b0 ++ s1 ++ b1 ++ ...`. -/
def interleave : List (List Char) → List (List Char) → List Char
  | [], bs => bs.flatten
  | s :: ss, [] => s ++ interleave ss []
  | s :: ss, b :: bs => s ++ b ++ interleave ss bs

/-- Specification chord grammar, root letter: one letter `A`..`G`,
case-insensitive. -/
def noteChar (c : Char) : Prop :=
  'a'.toNat ≤ toLowerN c ∧ toLowerN c ≤ 'g'.toNat

/-- Specification chord grammar, accidental: `#` or `b`, case-insensitive. -/
def accChar (c : Char) : Prop :=
  toLowerN c = '#'.toNat ∨ toLowerN c = 'b'.toNat

/-- Specification chord grammar: a decimal digit. -/
def digitChar (c : Char) : Prop :=
  '0'.toNat ≤ c.toNat ∧ c.toNat ≤ '9'.toNat

/-- Specification chord grammar: a quality keyword from
{maj, min, m, dim, aug, sus, add}, case-insensitively. -/
def qualityWord (q : List Char) : Prop :=
  q.map toLowerN ∈ qualityAltsN

/-- Specification chord grammar: the optional accidental after the root. -/
def accOpt (acc : List Char) : Prop :=
  acc = [] ∨ ∃ a, acc = [a] ∧ accChar a

/-- Specification chord grammar: the optional quality keyword, optionally
followed by digits (digits are only permitted after a keyword). -/
def midOpt (mid : List Char) : Prop :=
  mid = [] ∨ ∃ q ds, mid = q ++ ds ∧ qualityWord q ∧ ∀ d ∈ ds, digitChar d

/-- Specification chord grammar: the optional slash-bass suffix `/` plus a
letter `A`..`G` with optional accidental. -/
def bassOpt (b : List Char) : Prop :=
  b = [] ∨ ∃ n a, b = '/' :: n :: a ∧ noteChar n ∧ (a = [] ∨ ∃ x, a = [x] ∧ accChar x)

/-- Specification chord grammar: the entire token is one root letter,
optional accidental, optional quality keyword with optional digits, and
optional slash-bass suffix. -/
def chordGrammar (t : List Char) : Prop :=
  ∃ r acc mid bass,
    t = r :: (acc ++ mid ++ bass) ∧ noteChar r ∧ accOpt acc ∧ midOpt mid ∧ bassOpt bass

instance (c : Char) : Decidable (noteChar c) := by
  unfold noteChar
  infer_instance

instance (c : Char) : Decidable (accChar c) := by
  unfold accChar
  infer_instance

instance (c : Char) : Decidable (digitChar c) := by
  unfold digitChar
  infer_instance

/-! ### Character-code lemmas -/

theorem char_toNat_inj {c d : Char} (h : c.toNat = d.toNat) : c = d := by
  have hc := Char.ofNat_toNat c
  have hd := Char.ofNat_toNat d
  rw [← hc, ← hd, h]

theorem char_eq_iff_toNat {c d : Char} : c = d ↔ c.toNat = d.toNat :=
  ⟨fun h => by rw [h], char_toNat_inj⟩

/-- For a code `k` that is not a letter code, `toLowerN c = k` holds exactly
when `c` itself has code `k`. -/
theorem toLowerN_eq_iff {c : Char} {k : Nat}
    (hk : k < 65 ∨ (90 < k ∧ k < 97) ∨ 122 < k) :
    toLowerN c = k ↔ c.toNat = k := by
  unfold toLowerN
  split
  next h => constructor <;> intro h' <;> omega
  next h => exact Iff.rfl

theorem toLowerN_of_upper {c : Char} (h : 65 ≤ c.toNat ∧ c.toNat ≤ 90) :
    toLowerN c = c.toNat + 32 := by
  unfold toLowerN
  simp [h]

theorem toLowerN_of_not_upper {c : Char} (h : ¬(65 ≤ c.toNat ∧ c.toNat ≤ 90)) :
    toLowerN c = c.toNat := by
  unfold toLowerN
  simp [h]

/-! ### Unfolding equations for the fuel-driven scanners -/

theorem tokensFromAux_fuel :
    ∀ (f1 : Nat) (cs : List Char) (i : Nat) (f2 : Nat), cs.length ≤ f1 → cs.length ≤ f2 →
      tokensFromAux f1 cs i = tokensFromAux f2 cs i := by
  intro f1
  induction f1 with
  | zero =>
    intro cs i f2 h1 h2
    have hnil : cs = [] := List.length_eq_zero.mp (Nat.le_zero.mp h1)
    subst hnil
    cases f2 <;> rfl
  | succ f ih =>
    intro cs i f2 h1 h2
    cases cs with
    | nil => cases f2 <;> rfl
    | cons c rest =>
      cases f2 with
      | zero => simp at h2
      | succ g =>
        show (if isSpaceChar c then tokensFromAux f rest (i + 1)
            else (i, c :: rest.takeWhile (fun x => !isSpaceChar x)) ::
              tokensFromAux f (rest.dropWhile (fun x => !isSpaceChar x))
                (i + 1 + (rest.takeWhile (fun x => !isSpaceChar x)).length))
          = (if isSpaceChar c then tokensFromAux g rest (i + 1)
            else (i, c :: rest.takeWhile (fun x => !isSpaceChar x)) ::
              tokensFromAux g (rest.dropWhile (fun x => !isSpaceChar x))
                (i + 1 + (rest.takeWhile (fun x => !isSpaceChar x)).length))
        have hlen : rest.length ≤ f ∧ rest.length ≤ g := by
          simp only [List.length_cons] at h1 h2
          omega
        by_cases hsp : isSpaceChar c = true
        · rw [if_pos hsp, if_pos hsp]
          exact ih rest (i + 1) g hlen.1 hlen.2
        · rw [if_neg hsp, if_neg hsp]
          congr 1
          have hd := (List.dropWhile_sublist (l := rest) (fun x => !isSpaceChar x)).length_le
          exact ih _ _ g (by omega) (by omega)

theorem tokensFrom_eq (cs : List Char) (i : Nat) :
    tokensFrom cs i =
      match cs with
      | [] => []
      | c :: rest =>
        if isSpaceChar c then
          tokensFrom rest (i + 1)
        else
          (i, c :: rest.takeWhile (fun x => !isSpaceChar x)) ::
            tokensFrom (rest.dropWhile (fun x => !isSpaceChar x))
              (i + 1 + (rest.takeWhile (fun x => !isSpaceChar x)).length) := by
  cases cs with
  | nil => rfl
  | cons c rest =>
    show (if isSpaceChar c then tokensFromAux rest.length rest (i + 1)
        else (i, c :: rest.takeWhile (fun x => !isSpaceChar x)) ::
          tokensFromAux rest.length (rest.dropWhile (fun x => !isSpaceChar x))
            (i + 1 + (rest.takeWhile (fun x => !isSpaceChar x)).length))
      = (if isSpaceChar c then tokensFrom rest (i + 1)
        else (i, c :: rest.takeWhile (fun x => !isSpaceChar x)) ::
          tokensFrom (rest.dropWhile (fun x => !isSpaceChar x))
            (i + 1 + (rest.takeWhile (fun x => !isSpaceChar x)).length))
    by_cases hsp : isSpaceChar c = true
    · rw [if_pos hsp, if_pos hsp]
      rfl
    · rw [if_neg hsp, if_neg hsp]
      congr 1
      have hd := (List.dropWhile_sublist (l := rest) (fun x => !isSpaceChar x)).length_le
      exact tokensFromAux_fuel rest.length _ _ _ hd (Nat.le_refl _)

theorem splitRunsAux_fuel :
    ∀ (f1 : Nat) (cs : List Char) (f2 : Nat), cs.length ≤ f1 → cs.length ≤ f2 →
      splitRunsAux f1 cs = splitRunsAux f2 cs := by
  intro f1
  induction f1 with
  | zero =>
    intro cs f2 h1 h2
    have hnil : cs = [] := List.length_eq_zero.mp (Nat.le_zero.mp h1)
    subst hnil
    cases f2 <;> rfl
  | succ f ih =>
    intro cs f2 h1 h2
    cases cs with
    | nil => cases f2 <;> rfl
    | cons c rest =>
      cases f2 with
      | zero => simp at h2
      | succ g =>
        show (if isSpaceChar c then
            (c :: rest.takeWhile isSpaceChar) :: splitRunsAux f (rest.dropWhile isSpaceChar)
          else (c :: rest.takeWhile (fun x => !isSpaceChar x)) ::
            splitRunsAux f (rest.dropWhile (fun x => !isSpaceChar x)))
          = (if isSpaceChar c then
            (c :: rest.takeWhile isSpaceChar) :: splitRunsAux g (rest.dropWhile isSpaceChar)
          else (c :: rest.takeWhile (fun x => !isSpaceChar x)) ::
            splitRunsAux g (rest.dropWhile (fun x => !isSpaceChar x)))
        have hlen : rest.length ≤ f ∧ rest.length ≤ g := by
          simp only [List.length_cons] at h1 h2
          omega
        by_cases hsp : isSpaceChar c = true
        · rw [if_pos hsp, if_pos hsp]
          congr 1
          have hd := (List.dropWhile_sublist (l := rest) isSpaceChar).length_le
          exact ih _ g (by omega) (by omega)
        · rw [if_neg hsp, if_neg hsp]
          congr 1
          have hd := (List.dropWhile_sublist (l := rest) (fun x => !isSpaceChar x)).length_le
          exact ih _ g (by omega) (by omega)

theorem splitRunsL_eq (cs : List Char) :
    splitRunsL cs =
      match cs with
      | [] => []
      | c :: rest =>
        if isSpaceChar c then
          (c :: rest.takeWhile isSpaceChar) :: splitRunsL (rest.dropWhile isSpaceChar)
        else
          (c :: rest.takeWhile (fun x => !isSpaceChar x)) ::
            splitRunsL (rest.dropWhile (fun x => !isSpaceChar x)) := by
  cases cs with
  | nil => rfl
  | cons c rest =>
    show (if isSpaceChar c then
        (c :: rest.takeWhile isSpaceChar) :: splitRunsAux rest.length (rest.dropWhile isSpaceChar)
      else (c :: rest.takeWhile (fun x => !isSpaceChar x)) ::
        splitRunsAux rest.length (rest.dropWhile (fun x => !isSpaceChar x)))
      = (if isSpaceChar c then
        (c :: rest.takeWhile isSpaceChar) :: splitRunsL (rest.dropWhile isSpaceChar)
      else (c :: rest.takeWhile (fun x => !isSpaceChar x)) ::
        splitRunsL (rest.dropWhile (fun x => !isSpaceChar x)))
    by_cases hsp : isSpaceChar c = true
    · rw [if_pos hsp, if_pos hsp]
      congr 1
      have hd := (List.dropWhile_sublist (l := rest) isSpaceChar).length_le
      exact splitRunsAux_fuel rest.length _ _ hd (Nat.le_refl _)
    · rw [if_neg hsp, if_neg hsp]
      congr 1
      have hd := (List.dropWhile_sublist (l := rest) (fun x => !isSpaceChar x)).length_le
      exact splitRunsAux_fuel rest.length _ _ hd (Nat.le_refl _)

/-! ### The merge loop: fold, recursion, and specification forms agree -/

theorem foldl_mergeStep_eq (ps : List (Nat × List Char)) :
    ∀ (l : List Char) (o : Nat), (ps.foldl mergeStep (l, o)).1 = mergeList ps l o := by
  induction ps with
  | nil => intro l o; rfl
  | cons pc ps ih =>
    intro l o
    obtain ⟨p, c⟩ := pc
    rw [List.foldl_cons]
    exact ih _ _

theorem mergeSpecGo_eq_mergeList (ps : List (Nat × List Char)) :
    ∀ (l : List Char) (o : Nat), mergeSpecGo ps l o = mergeList ps l o := by
  induction ps with
  | nil => intro l o; rfl
  | cons pc ps ih =>
    intro l o
    obtain ⟨p, c⟩ := pc
    show mergeSpecGo ps _ _ = mergeList ps _ _
    have hb : bracketChars c = '[' :: c ++ [']'] := rfl
    have hl : (bracketChars c).length = c.length + 2 := by
      simp [bracketChars]
    rw [hl, ih, ← hb]

theorem merge_eq_mergeList (c l : String) :
    merge_chords_and_lyrics c l = String.mk (mergeList (chord_positions c) l.data 0) := by
  unfold merge_chords_and_lyrics
  rw [foldl_mergeStep_eq]

/-- C1: for every chord line and lyric line, `merge_chords_and_lyrics` equals
the specification's description of the same algorithm: collect the maximal
non-whitespace tokens with their 0-based offsets, keep only the ones
satisfying the Chord predicate (bar separators and annotations are discarded
and not re-inserted), then, in left-to-right offset order with a running
offset initialised to 0, insert each token text `t` of original offset `p` as
the literal substring `[t]` at index `p + runningOffset` clamped into
`[0, current lyric length]`, increasing the running offset by `len(t) + 2`;
the result is the final character sequence as one string. -/
theorem spec_C1 (chordLine lyricLine : String) :
    merge_chords_and_lyrics chordLine lyricLine = mergeSpec chordLine lyricLine := by
  rw [merge_eq_mergeList]
  unfold mergeSpec chord_positions
  rw [mergeSpecGo_eq_mergeList]

/-! ### Structure of the merge result -/

/-- When every remaining chord's target index is at or past the end of the
current buffer, the loop appends the bracketed chords one after another. -/
theorem mergeList_all_past (ps : List (Nat × List Char)) :
    ∀ (l : List Char) (o : Nat), (∀ pc ∈ ps, l.length ≤ pc.1 + o) →
      mergeList ps l o = l ++ (ps.map (fun pc => bracketChars pc.2)).flatten := by
  induction ps with
  | nil => intro l o _; simp [mergeList]
  | cons pc ps ih =>
    intro l o h
    obtain ⟨p, c⟩ := pc
    have hp : l.length ≤ p + o := h (p, c) (List.mem_cons_self _ _)
    have hmin : min (p + o) l.length = l.length := by omega
    show mergeList ps _ _ = _
    rw [hmin, List.take_length, List.drop_length, List.append_nil]
    rw [ih (l ++ bracketChars c) (o + (bracketChars c).length) ?_]
    · simp [List.append_assoc]
    · intro qc hq
      have := h qc (List.mem_cons_of_mem _ hq)
      simp only [List.length_append]
      omega

/-- Applying `placeRel` with an exhausted remainder appends the bracketed chords. -/
theorem placeRel_nil_rem (ps : List (Nat × List Char)) :
    ∀ (base : Nat), placeRel base [] ps = (ps.map (fun pc => bracketChars pc.2)).flatten := by
  induction ps with
  | nil => intro base; simp [placeRel]
  | cons pc ps ih =>
    intro base
    obtain ⟨p, c⟩ := pc
    show List.take _ _ ++ _ ++ _ = _
    simp [ih]

/-- Central structural lemma: with a frozen prefix `acc` of length
`base + o` and strictly increasing chord columns all at least `base`, the
insertion loop on `acc ++ rem` leaves `acc` intact and rewrites `rem`
according to `placeRel`. -/
theorem mergeList_eq_placeRel (ps : List (Nat × List Char)) :
    ∀ (acc rem : List Char) (base o : Nat),
      acc.length = base + o →
      (∀ pc ∈ ps, base ≤ pc.1) →
      List.Pairwise (fun a b => a.1 < b.1) ps →
      mergeList ps (acc ++ rem) o = acc ++ placeRel base rem ps := by
  induction ps with
  | nil => intro acc rem base o _ _ _; simp [mergeList, placeRel]
  | cons pc ps ih =>
    intro acc rem base o hlen hbase hpair
    obtain ⟨p, c⟩ := pc
    have hp : base ≤ p := hbase (p, c) (List.mem_cons_self _ _)
    have hmin : min (p + o) (acc ++ rem).length
        = acc.length + min (p - base) rem.length := by
      simp only [List.length_append]
      omega
    have htake : (acc ++ rem).take (acc.length + min (p - base) rem.length)
        = acc ++ rem.take (min (p - base) rem.length) := List.take_append _
    have hdrop : (acc ++ rem).drop (acc.length + min (p - base) rem.length)
        = rem.drop (min (p - base) rem.length) := List.drop_append _
    have hrest : ∀ pc ∈ ps, p < pc.1 := by
      intro qc hq
      exact (List.pairwise_cons.mp hpair).1 qc hq
    show mergeList ps _ _ = _
    rw [hmin, htake, hdrop]
    by_cases hcl : p - base ≤ rem.length
    · -- no clamping: the cut lands inside the remainder
      have hk : min (p - base) rem.length = p - base := by omega
      have heq : acc ++ rem.take (min (p - base) rem.length) ++ bracketChars c ++
            rem.drop (min (p - base) rem.length)
          = (acc ++ rem.take (min (p - base) rem.length) ++ bracketChars c) ++
            rem.drop (min (p - base) rem.length) := by
        simp [List.append_assoc]
      rw [heq, ih (acc ++ rem.take (min (p - base) rem.length) ++ bracketChars c)
        (rem.drop (min (p - base) rem.length)) p (o + (bracketChars c).length) ?_ ?_ ?_]
      · show _ = acc ++ (rem.take _ ++ _ ++ _)
        simp [List.append_assoc]
      · simp only [List.length_append, List.length_take, hk]
        omega
      · intro qc hq
        exact Nat.le_of_lt (hrest qc hq)
      · exact (List.pairwise_cons.mp hpair).2
    · -- clamping: the chord is appended at the end, and so are all later ones
      have hk : min (p - base) rem.length = rem.length := by omega
      have hrhs : placeRel base rem ((p, c) :: ps)
          = rem ++ bracketChars c ++ (ps.map (fun pc => bracketChars pc.2)).flatten := by
        show rem.take (min (p - base) rem.length) ++ bracketChars c ++
            placeRel p (rem.drop (min (p - base) rem.length)) ps = _
        rw [hk, List.take_length, List.drop_length, placeRel_nil_rem]
      rw [hk, List.take_length, List.drop_length, hrhs]
      rw [mergeList_all_past ps (acc ++ rem ++ bracketChars c ++ [])
        (o + (bracketChars c).length) ?_]
      · simp [List.append_assoc]
      · intro qc hq
        have hq2 := hrest qc hq
        simp only [List.length_append, List.length_nil]
        omega

/-- The token positions produced by `tokensFrom` are bounded below by the
running index and strictly increase. -/
theorem tokensFrom_pos_lb (n : Nat) :
    ∀ (cs : List Char) (i : Nat), cs.length ≤ n →
      (∀ pc ∈ tokensFrom cs i, i ≤ pc.1) ∧
      List.Pairwise (fun a b => a.1 < b.1) (tokensFrom cs i) := by
  induction n with
  | zero =>
    intro cs i hle
    have : cs = [] := List.length_eq_zero.mp (Nat.le_zero.mp hle)
    subst this
    simp [tokensFrom, tokensFromAux]
  | succ n ih =>
    intro cs i hle
    match cs with
    | [] => simp [tokensFrom, tokensFromAux]
    | c :: rest =>
      rw [tokensFrom_eq]
      dsimp only
      by_cases hsp : isSpaceChar c = true
      · rw [if_pos hsp]
        have hr : rest.length ≤ n := by
          simp only [List.length_cons] at hle; omega
        obtain ⟨h1, h2⟩ := ih rest (i + 1) hr
        exact ⟨fun pc hpc => Nat.le_of_succ_le (h1 pc hpc), h2⟩
      · rw [if_neg hsp]
        have hdl : (rest.dropWhile (fun x => !isSpaceChar x)).length ≤ n := by
          have := (List.dropWhile_sublist (l := rest) (fun x => !isSpaceChar x)).length_le
          simp only [List.length_cons] at hle
          omega
        obtain ⟨h1, h2⟩ :=
          ih (rest.dropWhile (fun x => !isSpaceChar x))
            (i + 1 + (rest.takeWhile (fun x => !isSpaceChar x)).length) hdl
        constructor
        · intro pc hpc
          rcases List.mem_cons.mp hpc with h | h
          · rw [h]
          · have := h1 pc h
            omega
        · rw [List.pairwise_cons]
          refine ⟨?_, h2⟩
          intro qc hq
          have := h1 qc hq
          show i < qc.1
          omega

theorem chord_positions_pairwise (c : String) :
    List.Pairwise (fun a b => a.1 < b.1) (chord_positions c) :=
  ((tokensFrom_pos_lb c.data.length c.data 0 (Nat.le_refl _)).2).filter _

/-- The merged line in closed form: the lyric cut at the clamped chord
columns with the bracketed chords placed at the cuts. -/
theorem merge_eq_placeRel (c l : String) :
    merge_chords_and_lyrics c l = String.mk (placeRel 0 l.data (chord_positions c)) := by
  rw [merge_eq_mergeList]
  have := mergeList_eq_placeRel (chord_positions c) [] l.data 0 0 (by simp)
    (fun pc _ => Nat.zero_le _) (chord_positions_pairwise c)
  simp only [List.nil_append] at this
  rw [this]

/-! ### The chord matcher versus the specification grammar -/

theorem isNoteN_iff {k : Nat} : isNoteN k = true ↔ 'a'.toNat ≤ k ∧ k ≤ 'g'.toNat := by
  simp [isNoteN]

theorem isAccN_iff {k : Nat} : isAccN k = true ↔ k = '#'.toNat ∨ k = 'b'.toNat := by
  simp [isAccN]

theorem isDigitN_iff {k : Nat} : isDigitN k = true ↔ '0'.toNat ≤ k ∧ k ≤ '9'.toNat := by
  simp [isDigitN]

theorem noteChar_iff {c : Char} : noteChar c ↔ isNoteN (toLowerN c) = true := by
  rw [isNoteN_iff]
  exact Iff.rfl

theorem accChar_iff {c : Char} : accChar c ↔ isAccN (toLowerN c) = true := by
  rw [isAccN_iff]
  exact Iff.rfl

theorem digitChar_iff {d : Char} : isDigitN (toLowerN d) = true ↔ digitChar d := by
  rw [isDigitN_iff]
  unfold digitChar toLowerN
  have h0 : '0'.toNat = 48 := rfl
  have h9 : '9'.toNat = 57 := rfl
  rw [h0, h9]
  split
  next h => omega
  next h => omega

theorem char_eq_of_toLowerN_eq_code {c x : Char} (hx : x.toNat < 65)
    (h : toLowerN c = x.toNat) : c = x :=
  char_toNat_inj ((toLowerN_eq_iff (Or.inl hx)).mp h)

theorem stripPrefixN_append (xs : List Nat) : ∀ r, stripPrefixN xs (xs ++ r) = some r := by
  induction xs with
  | nil => intro r; rfl
  | cons x xs ih =>
    intro r
    show (if x == x then stripPrefixN xs (xs ++ r) else none) = some r
    simp [ih]

theorem stripPrefixN_some :
    ∀ {pat u r : List Nat}, stripPrefixN pat u = some r → u = pat ++ r := by
  intro pat
  induction pat with
  | nil =>
    intro u r h
    simp only [stripPrefixN, Option.some.injEq] at h
    rw [h]
    rfl
  | cons p ps ih =>
    intro u r h
    match u with
    | [] => exact absurd h (by simp [stripPrefixN])
    | c :: cs =>
      simp only [stripPrefixN] at h
      split at h
      next hc =>
        have := ih h
        rw [List.cons_append, ← this, beq_iff_eq.mp hc]
      next hc => exact absurd h (by simp)

theorem tailSlashN_char_iff (u : List Char) :
    tailSlashN (u.map toLowerN) = true ↔ bassOpt u := by
  match u with
  | [] => simp [tailSlashN, bassOpt]
  | [x] =>
    constructor
    · intro h
      exact absurd h (by simp [tailSlashN])
    · rintro (h | ⟨n, a, h, _, _⟩) <;> simp_all
  | x :: y :: w =>
    simp only [List.map_cons]
    show (toLowerN x == '/'.toNat && isNoteN (toLowerN y) && accEndN (w.map toLowerN)) = true ↔ _
    rw [Bool.and_eq_true, Bool.and_eq_true, beq_iff_eq]
    constructor
    · rintro ⟨⟨h47, hnote⟩, hacc⟩
      have hx : x = '/' := char_eq_of_toLowerN_eq_code (by decide) h47
      refine Or.inr ⟨y, w, by rw [hx], noteChar_iff.mpr hnote, ?_⟩
      match w with
      | [] => exact Or.inl rfl
      | [z] =>
        refine Or.inr ⟨z, rfl, accChar_iff.mpr ?_⟩
        simpa [accEndN] using hacc
      | z1 :: z2 :: zz => simp [accEndN] at hacc
    · rintro (h | ⟨n, a, he, hn, ha⟩)
      · exact absurd h (by simp)
      · obtain ⟨hx, hy, hw⟩ : x = '/' ∧ y = n ∧ w = a := by
          injection he with h1 h2
          injection h2 with h3 h4
          exact ⟨h1, h3, h4⟩
        subst hx
        subst hy
        subst hw
        refine ⟨⟨by decide, noteChar_iff.mp hn⟩, ?_⟩
        rcases ha with rfl | ⟨z, rfl, hz⟩
        · simp [accEndN]
        · simp only [List.map_cons, List.map_nil]
          show isAccN (toLowerN z) = true
          exact accChar_iff.mp hz

theorem afterQualN_char_iff (u : List Char) :
    afterQualN (u.map toLowerN) = true ↔
      ∃ ds bs, u = ds ++ bs ∧ (∀ d ∈ ds, digitChar d) ∧ bassOpt bs := by
  unfold afterQualN
  rw [List.dropWhile_map]
  constructor
  · intro h
    refine ⟨u.takeWhile (isDigitN ∘ toLowerN), u.dropWhile (isDigitN ∘ toLowerN),
      (List.takeWhile_append_dropWhile _ _).symm, ?_, (tailSlashN_char_iff _).mp h⟩
    intro d hd
    have hp := List.mem_takeWhile_imp hd
    exact digitChar_iff.mp hp
  · rintro ⟨ds, bs, rfl, hds, hbs⟩
    have hdrop : (ds ++ bs).dropWhile (isDigitN ∘ toLowerN) = bs := by
      rw [List.dropWhile_append]
      have h1 : ds.dropWhile (isDigitN ∘ toLowerN) = [] := by
        rw [List.dropWhile_eq_nil_iff]
        intro d hd
        exact digitChar_iff.mpr (hds d hd)
      rw [h1]
      simp only [List.isEmpty_nil, if_true]
      rcases hbs with rfl | ⟨n, a, rfl, _, _⟩
      · rfl
      · rw [List.dropWhile_cons_of_neg]
        show ¬isDigitN (toLowerN '/') = true
        decide
    rw [hdrop]
    exact (tailSlashN_char_iff bs).mpr hbs

theorem afterRootN_char_iff (u : List Char) :
    afterRootN (u.map toLowerN) = true ↔
      ∃ mid bs, u = mid ++ bs ∧ midOpt mid ∧ bassOpt bs := by
  unfold afterRootN
  rw [Bool.or_eq_true]
  constructor
  · rintro (h | h)
    · exact ⟨[], u, rfl, Or.inl rfl, (tailSlashN_char_iff u).mp h⟩
    · rw [List.any_eq_true] at h
      obtain ⟨alt, halt, hmatch⟩ := h
      cases hsp : stripPrefixN alt (u.map toLowerN) with
      | none =>
        rw [hsp] at hmatch
        exact absurd hmatch (by simp)
      | some r =>
        rw [hsp] at hmatch
        simp only at hmatch
        have hu : u.map toLowerN = alt ++ r := stripPrefixN_some hsp
        obtain ⟨q, u2, hqu, hq, hr⟩ := List.map_eq_append_iff.mp hu
        subst hqu
        rw [← hr] at hmatch
        obtain ⟨ds, bs, hdu, hds, hbs⟩ := (afterQualN_char_iff u2).mp hmatch
        subst hdu
        refine ⟨q ++ ds, bs, by simp [List.append_assoc], Or.inr ⟨q, ds, rfl, ?_, hds⟩, hbs⟩
        show q.map toLowerN ∈ qualityAltsN
        rw [hq]
        exact halt
  · rintro ⟨mid, bs, rfl, hmid, hbs⟩
    rcases hmid with rfl | ⟨q, ds, rfl, hq, hds⟩
    · exact Or.inl ((tailSlashN_char_iff bs).mpr hbs)
    · right
      rw [List.any_eq_true]
      refine ⟨q.map toLowerN, hq, ?_⟩
      have hstrip : stripPrefixN (q.map toLowerN) ((q ++ ds ++ bs).map toLowerN)
          = some ((ds ++ bs).map toLowerN) := by
        rw [List.append_assoc, List.map_append]
        exact stripPrefixN_append _ _
      rw [hstrip]
      exact (afterQualN_char_iff (ds ++ bs)).mpr ⟨ds, bs, rfl, hds, hbs⟩

theorem chordGrammar_nil : ¬ chordGrammar [] := by
  rintro ⟨r, acc, mid, bass, h, _⟩
  simp at h

theorem chordMatchN_char_iff (t : List Char) :
    chordMatchN (t.map toLowerN) = true ↔ chordGrammar t := by
  match t with
  | [] =>
    simp only [List.map_nil]
    constructor
    · intro h
      exact absurd h (by simp [chordMatchN])
    · intro h
      exact absurd h chordGrammar_nil
  | r :: rest =>
    simp only [List.map_cons, chordMatchN]
    rw [Bool.and_eq_true]
    constructor
    · rintro ⟨hnote, hrest⟩
      rw [Bool.or_eq_true] at hrest
      rcases hrest with h | h
      · obtain ⟨mid, bs, hdecomp, hmid, hbs⟩ := (afterRootN_char_iff rest).mp h
        exact ⟨r, [], mid, bs, by rw [hdecomp]; rfl, noteChar_iff.mpr hnote,
          Or.inl rfl, hmid, hbs⟩
      · cases rest with
        | nil => simp at h
        | cons a rest2 =>
          simp only [List.map_cons] at h
          rw [Bool.and_eq_true] at h
          obtain ⟨hacc, hafter⟩ := h
          obtain ⟨mid, bs, hdecomp, hmid, hbs⟩ := (afterRootN_char_iff rest2).mp hafter
          exact ⟨r, [a], mid, bs, by rw [hdecomp]; rfl, noteChar_iff.mpr hnote,
            Or.inr ⟨a, rfl, accChar_iff.mpr hacc⟩, hmid, hbs⟩
    · rintro ⟨r2, acc, mid, bs, heq, hr2, hacc, hmid, hbs⟩
      injection heq with h1 h2
      subst h1
      subst h2
      refine ⟨noteChar_iff.mp hr2, ?_⟩
      rw [Bool.or_eq_true]
      rcases hacc with rfl | ⟨a, rfl, ha⟩
      · left
        rw [List.nil_append]
        exact (afterRootN_char_iff _).mpr ⟨mid, bs, rfl, hmid, hbs⟩
      · right
        simp only [List.cons_append, List.map_cons]
        rw [Bool.and_eq_true]
        exact ⟨accChar_iff.mp ha, (afterRootN_char_iff _).mpr ⟨mid, bs, rfl, hmid, hbs⟩⟩

theorem is_chord_token_iff (token : String) :
    is_chord_token token = true ↔ chordGrammar (stripL token.data) := by
  unfold is_chord_token is_chord_tokenL
  split
  next h =>
    have hnil : token.data = [] := List.isEmpty_iff.mp h
    rw [hnil]
    simp only [Bool.false_eq_true, false_iff]
    rw [show stripL [] = [] from rfl]
    exact chordGrammar_nil
  next h => exact chordMatchN_char_iff _

/-! ### Case insensitivity -/

theorem isSpaceChar_iff_toLowerN (c : Char) :
    isSpaceChar c = true ↔
      (toLowerN c = ' '.toNat ∨ toLowerN c = '\t'.toNat ∨ toLowerN c = '\n'.toNat ∨
        toLowerN c = '\x0b'.toNat ∨ toLowerN c = '\x0c'.toNat ∨ toLowerN c = '\r'.toNat) := by
  unfold isSpaceChar
  simp only [Bool.or_eq_true, beq_iff_eq]
  constructor
  · rintro (((((rfl | rfl) | rfl) | rfl) | rfl) | rfl) <;> decide
  · rintro (h | h | h | h | h | h)
    · exact Or.inl (Or.inl (Or.inl (Or.inl (Or.inl
        (char_eq_of_toLowerN_eq_code (by decide) h)))))
    · exact Or.inl (Or.inl (Or.inl (Or.inl (Or.inr
        (char_eq_of_toLowerN_eq_code (by decide) h)))))
    · exact Or.inl (Or.inl (Or.inl (Or.inr (char_eq_of_toLowerN_eq_code (by decide) h))))
    · exact Or.inl (Or.inl (Or.inr (char_eq_of_toLowerN_eq_code (by decide) h)))
    · exact Or.inl (Or.inr (char_eq_of_toLowerN_eq_code (by decide) h))
    · exact Or.inr (char_eq_of_toLowerN_eq_code (by decide) h)

theorem isSpaceChar_congr_lower {a b : Char} (h : toLowerN a = toLowerN b) :
    isSpaceChar a = isSpaceChar b := by
  have h2 : isSpaceChar a = true ↔ isSpaceChar b = true := by
    rw [isSpaceChar_iff_toLowerN, isSpaceChar_iff_toLowerN, h]
  cases hsa : isSpaceChar a <;> cases hsb : isSpaceChar b <;> simp_all

theorem dropWhile_map_lower :
    ∀ {l₁ l₂ : List Char}, l₁.map toLowerN = l₂.map toLowerN →
      (l₁.dropWhile isSpaceChar).map toLowerN = (l₂.dropWhile isSpaceChar).map toLowerN := by
  intro l₁
  induction l₁ with
  | nil =>
    intro l₂ h
    have : l₂ = [] := by
      cases l₂ with
      | nil => rfl
      | cons b t => simp at h
    rw [this]
  | cons a t ih =>
    intro l₂ h
    cases l₂ with
    | nil => simp at h
    | cons b t₂ =>
      simp only [List.map_cons, List.cons.injEq] at h
      obtain ⟨hab, ht⟩ := h
      have hsp := isSpaceChar_congr_lower hab
      by_cases hs : isSpaceChar a = true
      · rw [List.dropWhile_cons_of_pos hs, List.dropWhile_cons_of_pos (by rw [← hsp]; exact hs)]
        exact ih ht
      · rw [List.dropWhile_cons_of_neg hs, List.dropWhile_cons_of_neg (by rw [← hsp]; exact hs)]
        simp only [List.map_cons, hab, ht]

theorem stripL_map_lower {l₁ l₂ : List Char} (h : l₁.map toLowerN = l₂.map toLowerN) :
    (stripL l₁).map toLowerN = (stripL l₂).map toLowerN := by
  unfold stripL
  have h1 := dropWhile_map_lower h
  have h2 : ((l₁.dropWhile isSpaceChar).reverse).map toLowerN
      = ((l₂.dropWhile isSpaceChar).reverse).map toLowerN := by
    rw [List.map_reverse, List.map_reverse, h1]
  have h3 := dropWhile_map_lower h2
  rw [List.map_reverse, List.map_reverse, h3]

theorem is_chord_token_congr_lower {s t : String}
    (h : s.data.map toLowerN = t.data.map toLowerN) :
    is_chord_token s = is_chord_token t := by
  unfold is_chord_token is_chord_tokenL
  have hlen : s.data.isEmpty = t.data.isEmpty := by
    have := congrArg List.length h
    simp only [List.length_map] at this
    cases hs : s.data <;> cases ht : t.data <;> simp_all
  rw [hlen, stripL_map_lower h]

/-- C3: `classifyChordToken` returns true exactly when the entire trimmed
token matches the chord grammar: one letter A–G, optional accidental `#` or
`b`, optional quality keyword from {maj, min, m, dim, aug, sus, add}
optionally followed by digits, and optional slash-bass suffix `/` plus a
letter A–G with optional accidental, all case-insensitively; and any two
tokens that agree after ASCII lowercasing (in particular, tokens differing
only in letter case) classify identically. -/
theorem spec_C3 (s t : String) :
    (is_chord_token s = true ↔ chordGrammar (pyStrip s).data) ∧
      (s.data.map toLowerN = t.data.map toLowerN → is_chord_token s = is_chord_token t) := by
  constructor
  · show is_chord_token s = true ↔ chordGrammar (stripL s.data)
    exact is_chord_token_iff s
  · exact is_chord_token_congr_lower

/-- Witness for C3 at concrete inputs: the tokens `Am` and `aM` lowercase to
the same letters, so they classify identically (and both are chords). -/
theorem spec_C3_witness :
    is_chord_token "Am" = is_chord_token "aM" ∧ is_chord_token "Am" = true :=
  ⟨(spec_C3 "Am" "aM").2 (by decide), by decide⟩

/-! ### Mutual exclusivity of the token classifiers -/

theorem not_bracketlike_of_noteChar {c : Char} (h : noteChar c) : c ≠ '[' ∧ c ≠ ']' := by
  constructor <;> rintro rfl <;> exact absurd h (by decide)

theorem not_bracketlike_of_accChar {c : Char} (h : accChar c) : c ≠ '[' ∧ c ≠ ']' := by
  constructor <;> rintro rfl <;> exact absurd h (by decide)

theorem not_bracketlike_of_digitChar {c : Char} (h : digitChar c) : c ≠ '[' ∧ c ≠ ']' := by
  constructor <;> rintro rfl <;> exact absurd h (by decide)

theorem not_bracketlike_of_quality {q : List Char} {x : Char}
    (hq : qualityWord q) (hx : x ∈ q) : x ≠ '[' ∧ x ≠ ']' := by
  have hqmem : toLowerN x ∈ q.map toLowerN := List.mem_map_of_mem _ hx
  have hbound : ∀ alt ∈ qualityAltsN, ∀ k ∈ alt, 97 ≤ k ∧ k ≤ 122 := by decide
  have hb := hbound _ hq _ hqmem
  constructor <;> rintro rfl <;> revert hb <;> decide

/-- The characters of a token matching the chord grammar are never square
brackets. -/
theorem chordGrammar_mem_not_bracket {t : List Char} (h : chordGrammar t) :
    ∀ x ∈ t, x ≠ '[' ∧ x ≠ ']' := by
  obtain ⟨r, acc, mid, bass, rfl, hr, hacc, hmid, hbass⟩ := h
  intro x hx
  rcases List.mem_cons.mp hx with rfl | hx
  · exact not_bracketlike_of_noteChar hr
  rcases List.mem_append.mp hx with hx | hx
  · rcases List.mem_append.mp hx with hx | hx
    · rcases hacc with rfl | ⟨a, rfl, ha⟩
      · simp at hx
      · rw [List.mem_singleton] at hx
        rw [hx]
        exact not_bracketlike_of_accChar ha
    · rcases hmid with rfl | ⟨q, ds, rfl, hq, hds⟩
      · simp at hx
      · rcases List.mem_append.mp hx with hx | hx
        · exact not_bracketlike_of_quality hq hx
        · exact not_bracketlike_of_digitChar (hds x hx)
  · rcases hbass with rfl | ⟨n, a, rfl, hn, ha⟩
    · simp at hx
    · rcases List.mem_cons.mp hx with rfl | hx
      · constructor <;> decide
      · rcases List.mem_cons.mp hx with rfl | hx
        · exact not_bracketlike_of_noteChar hn
        · rcases ha with rfl | ⟨z, rfl, hz⟩
          · simp at hx
          · rw [List.mem_singleton] at hx
            rw [hx]
            exact not_bracketlike_of_accChar hz

/-- A chord match forces the first character of the stripped token to be a
letter A–G. -/
theorem chordGrammar_head {t : List Char} (h : chordGrammar t) :
    ∃ r rest, t = r :: rest ∧ noteChar r := by
  obtain ⟨r, acc, mid, bass, rfl, hr, _⟩ := h
  exact ⟨r, _, rfl, hr⟩

theorem chord_bar_exclusive {token : String}
    (hc : is_chord_token token = true) (hb : is_bar_separator token = true) : False := by
  obtain ⟨r, rest, heq, hr⟩ := chordGrammar_head ((is_chord_token_iff token).mp hc)
  unfold is_bar_separator is_bar_separatorL at hb
  rw [Bool.and_eq_true] at hb
  obtain ⟨-, hall⟩ := hb
  rw [List.all_eq_true] at hall
  have hmem : r ∈ stripL token.data := by
    rw [heq]
    exact List.mem_cons_self _ _
  have hbar : r = '|' := beq_iff_eq.mp (hall r hmem)
  rw [hbar] at hr
  exact absurd hr (by decide)

theorem chord_annot_exclusive {token : String}
    (hc : is_chord_token token = true) (ha : is_parenthetical_annot token = true) : False := by
  obtain ⟨r, rest, heq, hr⟩ := chordGrammar_head ((is_chord_token_iff token).mp hc)
  unfold is_parenthetical_annot is_paren_annotL at ha
  rw [heq] at ha
  simp only [parenMatchL, Bool.and_eq_true, beq_iff_eq] at ha
  rw [ha.1] at hr
  exact absurd hr (by decide)

theorem bar_annot_exclusive {token : String}
    (hb : is_bar_separator token = true) (ha : is_parenthetical_annot token = true) : False := by
  unfold is_bar_separator is_bar_separatorL at hb
  unfold is_parenthetical_annot is_paren_annotL at ha
  rw [Bool.and_eq_true] at hb
  obtain ⟨-, hall⟩ := hb
  rw [List.all_eq_true] at hall
  cases hl : stripL token.data with
  | nil => rw [hl] at ha; exact absurd ha (by simp [parenMatchL])
  | cons c cs =>
    rw [hl] at ha hall
    simp only [parenMatchL, Bool.and_eq_true, beq_iff_eq] at ha
    have hc : c = '|' := beq_iff_eq.mp (hall c (List.mem_cons_self _ _))
    rw [ha.1] at hc
    exact absurd hc (by decide)

/-- C7: the three token classifiers are mutually exclusive: for every token,
at most one of chord, bar-separator, and parenthetical-annotation holds; in
particular a token of `|` characters never also matches the chord pattern. -/
theorem spec_C7 (token : String) :
    (is_chord_token token && is_bar_separator token) = false ∧
      (is_chord_token token && is_parenthetical_annot token) = false ∧
      (is_bar_separator token && is_parenthetical_annot token) = false := by
  refine ⟨?_, ?_, ?_⟩
  · cases hc : is_chord_token token with
    | false => rfl
    | true =>
      cases hb : is_bar_separator token with
      | false => rfl
      | true => exact (chord_bar_exclusive hc hb).elim
  · cases hc : is_chord_token token with
    | false => rfl
    | true =>
      cases ha : is_parenthetical_annot token with
      | false => rfl
      | true => exact (chord_annot_exclusive hc ha).elim
  · cases hb : is_bar_separator token with
    | false => rfl
    | true =>
      cases ha : is_parenthetical_annot token with
      | false => rfl
      | true => exact (bar_annot_exclusive hb ha).elim

/-! ### Length and bracket counts of the merge -/

theorem bracketChars_length (t : List Char) : (bracketChars t).length = t.length + 2 := by
  simp [bracketChars]

theorem mergeList_length (ps : List (Nat × List Char)) :
    ∀ (l : List Char) (o : Nat),
      (mergeList ps l o).length
        = l.length + (ps.map (fun pc => (bracketChars pc.2).length)).sum := by
  induction ps with
  | nil => intro l o; simp [mergeList]
  | cons pc ps ih =>
    intro l o
    obtain ⟨p, c⟩ := pc
    show (mergeList ps _ _).length = _
    rw [ih]
    simp only [List.length_append, List.length_take, List.length_drop, List.map_cons,
      List.sum_cons]
    omega

theorem mergeList_count (x : Char) (ps : List (Nat × List Char)) :
    ∀ (l : List Char) (o : Nat),
      (mergeList ps l o).count x
        = l.count x + (ps.map (fun pc => (bracketChars pc.2).count x)).sum := by
  induction ps with
  | nil => intro l o; simp [mergeList]
  | cons pc ps ih =>
    intro l o
    obtain ⟨p, c⟩ := pc
    show (mergeList ps _ _).count x = _
    rw [ih]
    have hsplit := congrArg (List.count x)
      (List.take_append_drop (min (p + o) l.length) l)
    rw [List.count_append] at hsplit
    simp only [List.count_append, List.map_cons, List.sum_cons]
    omega

/-- All tokens produced by the tokenizer are whitespace-free. -/
theorem tokensFrom_no_space (n : Nat) :
    ∀ (cs : List Char) (i : Nat), cs.length ≤ n →
      ∀ pc ∈ tokensFrom cs i, ∀ x ∈ pc.2, isSpaceChar x = false := by
  induction n with
  | zero =>
    intro cs i hle
    have : cs = [] := List.length_eq_zero.mp (Nat.le_zero.mp hle)
    subst this
    simp [tokensFrom, tokensFromAux]
  | succ n ih =>
    intro cs i hle
    match cs with
    | [] => simp [tokensFrom, tokensFromAux]
    | c :: rest =>
      rw [tokensFrom_eq]
      dsimp only
      by_cases hsp : isSpaceChar c = true
      · rw [if_pos hsp]
        exact ih rest (i + 1) (by simp only [List.length_cons] at hle; omega)
      · rw [if_neg hsp]
        intro pc hpc
        rcases List.mem_cons.mp hpc with rfl | hpc
        · intro x hx
          rcases List.mem_cons.mp hx with rfl | hx
          · cases h : isSpaceChar x with
            | false => rfl
            | true => exact absurd h hsp
          · simpa using List.mem_takeWhile_imp hx
        · have hdl : (rest.dropWhile (fun x => !isSpaceChar x)).length ≤ n := by
            have := (List.dropWhile_sublist (l := rest) (fun x => !isSpaceChar x)).length_le
            simp only [List.length_cons] at hle
            omega
          exact ih _ _ hdl pc hpc

theorem stripL_of_no_space {t : List Char} (h : ∀ x ∈ t, isSpaceChar x = false) :
    stripL t = t := by
  unfold stripL
  match t with
  | [] => rfl
  | c :: cs =>
    rw [List.dropWhile_cons_of_neg (by rw [h c (List.mem_cons_self _ _)]; simp)]
    cases hr : (c :: cs).reverse with
    | nil => simp at hr
    | cons d ds =>
      have hd : d ∈ c :: cs := by
        rw [← List.mem_reverse, hr]
        exact List.mem_cons_self _ _
      rw [List.dropWhile_cons_of_neg (by rw [h d hd]; simp)]
      rw [← hr, List.reverse_reverse]

/-- The chord tokens kept for merging contain no square brackets. -/
theorem chord_positions_no_bracket {c : String} :
    ∀ pc ∈ chord_positions c, pc.2.count '[' = 0 ∧ pc.2.count ']' = 0 := by
  intro pc hpc
  rw [chord_positions, List.mem_filter] at hpc
  obtain ⟨hmem, hchord⟩ := hpc
  have hns := tokensFrom_no_space c.data.length c.data 0 (Nat.le_refl _) pc hmem
  have hstrip := stripL_of_no_space hns
  have hg : chordGrammar pc.2 := by
    rw [← hstrip]
    exact (is_chord_token_iff (String.mk pc.2)).mp hchord
  have hnb := chordGrammar_mem_not_bracket hg
  constructor <;> rw [List.count_eq_zero] <;> intro hin
  · exact (hnb _ hin).1 rfl
  · exact (hnb _ hin).2 rfl

theorem sum_map_const_one {α : Type} (ps : List α) (f : α → Nat)
    (h : ∀ p ∈ ps, f p = 1) : (ps.map f).sum = ps.length := by
  induction ps with
  | nil => rfl
  | cons p ps ih =>
    simp only [List.map_cons, List.sum_cons, List.length_cons]
    rw [h p (List.mem_cons_self _ _), ih (fun q hq => h q (List.mem_cons_of_mem _ hq))]
    omega

/-- C4 counterexample: the claim counts the bracket pairs of the whole merged
output, but a lyric line may itself contain brackets.  Merging the chord-only
line `C` (one chord token) with the lyric `[a] b` yields `[C][a] b`, which
has two `[`/`]` pairs, not one. -/
theorem spec_C4_counterexample :
    is_chord_only_line "C" = true ∧
      process_lines ["C", "[a] b"] = [merge_chords_and_lyrics "C" "[a] b"] ∧
      merge_chords_and_lyrics "C" "[a] b" = "[C][a] b" ∧
      (chord_positions "C").length = 1 ∧
      ("[C][a] b").data.count '[' = 2 ∧
      ("[C][a] b").data.count ']' = 2 ∧
      (2 : Nat) ≠ 1 := by
  refine ⟨by decide, by decide, by decide, by decide, by decide, by decide, by decide⟩

/-- C4 (amended): the merged output is never shorter than the lyric line, and
it contains exactly as many additional `[` characters and `]` characters,
beyond those already in the lyric line, as there are chord tokens on the
chord line (bar separators and annotations contribute zero). -/
theorem spec_C4 (c l : String) :
    l.length ≤ (merge_chords_and_lyrics c l).length ∧
      (merge_chords_and_lyrics c l).data.count '['
        = l.data.count '[' + (chord_positions c).length ∧
      (merge_chords_and_lyrics c l).data.count ']'
        = l.data.count ']' + (chord_positions c).length := by
  rw [merge_eq_mergeList]
  refine ⟨?_, ?_, ?_⟩
  · show l.data.length ≤ (mergeList (chord_positions c) l.data 0).length
    rw [mergeList_length]
    omega
  · show (mergeList (chord_positions c) l.data 0).count '[' = _
    rw [mergeList_count]
    have : ((chord_positions c).map (fun pc => (bracketChars pc.2).count '[')).sum
        = (chord_positions c).length := by
      apply sum_map_const_one
      intro pc hpc
      have h0 := (chord_positions_no_bracket pc hpc).1
      simp [bracketChars, List.count_cons, List.count_append, h0]
    rw [this]
  · show (mergeList (chord_positions c) l.data 0).count ']' = _
    rw [mergeList_count]
    have : ((chord_positions c).map (fun pc => (bracketChars pc.2).count ']')).sum
        = (chord_positions c).length := by
      apply sum_map_const_one
      intro pc hpc
      have h0 := (chord_positions_no_bracket pc hpc).2
      simp [bracketChars, List.count_cons, List.count_append, h0]
    rw [this]

/-! ### The clamped tail of the merge -/

theorem mergeList_append (A B : List (Nat × List Char)) :
    ∀ (l : List Char) (o : Nat),
      mergeList (A ++ B) l o
        = mergeList B (mergeList A l o)
            (o + (A.map (fun pc => (bracketChars pc.2).length)).sum) := by
  induction A with
  | nil => intro l o; simp [mergeList]
  | cons pc A ih =>
    intro l o
    obtain ⟨p, c⟩ := pc
    show mergeList (A ++ B) _ _ = _
    rw [ih]
    simp only [List.map_cons, List.sum_cons]
    congr 1
    omega

theorem sorted_takeWhile_filter {L : Nat} (ps : List (Nat × List Char))
    (hpair : List.Pairwise (fun a b => a.1 < b.1) ps) :
    ps.takeWhile (fun pc => pc.1 ≤ L) = ps.filter (fun pc => pc.1 ≤ L) ∧
      ps.dropWhile (fun pc => pc.1 ≤ L) = ps.filter (fun pc => L < pc.1) := by
  induction ps with
  | nil => exact ⟨rfl, rfl⟩
  | cons pc ps ih =>
    obtain ⟨hhead, htail⟩ := List.pairwise_cons.mp hpair
    obtain ⟨iht, ihd⟩ := ih htail
    by_cases hp : pc.1 ≤ L
    · constructor
      · rw [List.takeWhile_cons_of_pos (by simpa using hp),
          List.filter_cons_of_pos (by simpa using hp), iht]
      · rw [List.dropWhile_cons_of_pos (by simpa using hp),
          List.filter_cons_of_neg (by simpa using hp), ihd]
    · have hall : ∀ qc ∈ ps, L < qc.1 := by
        intro qc hq
        have := hhead qc hq
        omega
      constructor
      · rw [List.takeWhile_cons_of_neg (by simpa using hp),
          List.filter_cons_of_neg (by simpa using hp)]
        symm
        rw [List.filter_eq_nil_iff]
        intro qc hq
        have := hall qc hq
        simp
        omega
      · rw [List.dropWhile_cons_of_neg (by simpa using hp),
          List.filter_cons_of_pos (by simpa using (by omega : L < pc.1))]
        congr 1
        symm
        rw [List.filter_eq_self]
        intro qc hq
        have := hall qc hq
        simpa using this

/-- C5 counterexample: with two chords past the end of the lyric, only the
last one's bracketed form sits at the very end of the merged output.  For the
chord line with `C` at column 6 and `D` at column 8 merged with the lyric
`ab` (length 2), the output is `ab[C][D]`: the chord `C` exceeds the lyric
length, yet `[C]` is not a suffix of the result. -/
theorem spec_C5_counterexample :
    (6, ['C']) ∈ chord_positions "      C D" ∧
      ("ab" : String).length < 6 ∧
      merge_chords_and_lyrics "      C D" "ab" = "ab[C][D]" ∧
      (['[', 'C', ']'].isSuffixOf (merge_chords_and_lyrics "      C D" "ab").data) = false := by
  refine ⟨by decide, by decide, by decide, by decide⟩

/-- C5 (amended): the merged output consists of the merge of the in-range
chords followed by the bracketed forms of exactly the chords whose original
column exceeds the lyric length, in order, appended at the very end; hence
every such chord's bracketed form appears in the appended tail after the
whole lyric, never truncated or dropped, and no error is possible. -/
theorem spec_C5 (c l : String) :
    ((merge_chords_and_lyrics c l).data
        = mergeList ((chord_positions c).filter (fun pc => pc.1 ≤ l.length)) l.data 0
          ++ (((chord_positions c).filter (fun pc => l.length < pc.1)).map
              (fun pc => bracketChars pc.2)).flatten) ∧
      ∀ pc ∈ chord_positions c, l.length < pc.1 →
        ∃ pre post, (merge_chords_and_lyrics c l).data = pre ++ bracketChars pc.2 ++ post := by
  have hpair := chord_positions_pairwise c
  obtain ⟨htw, hdw⟩ := sorted_takeWhile_filter (L := l.length) (chord_positions c) hpair
  have hsplit : chord_positions c
      = (chord_positions c).filter (fun pc => pc.1 ≤ l.length)
        ++ (chord_positions c).filter (fun pc => l.length < pc.1) := by
    rw [← htw, ← hdw, List.takeWhile_append_dropWhile]
  have hmain : (merge_chords_and_lyrics c l).data
      = mergeList ((chord_positions c).filter (fun pc => pc.1 ≤ l.length)) l.data 0
        ++ (((chord_positions c).filter (fun pc => l.length < pc.1)).map
            (fun pc => bracketChars pc.2)).flatten := by
    rw [merge_eq_mergeList]
    show mergeList (chord_positions c) l.data 0 = _
    conv_lhs => rw [hsplit]
    rw [mergeList_append]
    rw [mergeList_all_past]
    intro pc hpc
    rw [List.mem_filter] at hpc
    have hgt : l.length < pc.1 := by simpa using hpc.2
    rw [mergeList_length]
    have hL : l.length = l.data.length := rfl
    omega
  refine ⟨hmain, ?_⟩
  intro pc hpc hgt
  have hmemf : pc ∈ (chord_positions c).filter (fun pc => l.length < pc.1) := by
    rw [List.mem_filter]
    exact ⟨hpc, by simpa using hgt⟩
  have hmemmap : bracketChars pc.2
      ∈ ((chord_positions c).filter (fun pc => l.length < pc.1)).map
          (fun pc => bracketChars pc.2) := List.mem_map_of_mem _ hmemf
  obtain ⟨s, t, hst⟩ := List.append_of_mem hmemmap
  refine ⟨mergeList ((chord_positions c).filter (fun pc => pc.1 ≤ l.length)) l.data 0
    ++ s.flatten, t.flatten, ?_⟩
  rw [hmain, hst]
  simp [List.flatten_append, List.append_assoc]

/-- C5 witness: applying the amended clamping theorem at the concrete merge
of `      C D` over `ab`, the overflowing chord `C` appears bracketed inside
the appended tail. -/
theorem spec_C5_witness :
    ∃ pre post, (merge_chords_and_lyrics "      C D" "ab").data
      = pre ++ bracketChars ['C'] ++ post :=
  (spec_C5 "      C D" "ab").2 (6, ['C']) (by decide) (by decide)

/-! ### The merge only inserts -/

theorem placeRel_interleave (ps : List (Nat × List Char)) :
    ∀ (base : Nat) (rem : List Char),
      ∃ segs : List (List Char),
        segs.length = ps.length + 1 ∧ segs.flatten = rem ∧
        placeRel base rem ps = interleave segs (ps.map (fun pc => bracketChars pc.2)) := by
  induction ps with
  | nil =>
    intro base rem
    exact ⟨[rem], rfl, by simp, by simp [placeRel, interleave]⟩
  | cons pc ps ih =>
    intro base rem
    obtain ⟨p, c⟩ := pc
    obtain ⟨segs, h1, h2, h3⟩ := ih p (rem.drop (min (p - base) rem.length))
    refine ⟨rem.take (min (p - base) rem.length) :: segs, ?_, ?_, ?_⟩
    · simp [h1]
    · simp only [List.flatten_cons, h2, List.take_append_drop]
    · show rem.take _ ++ bracketChars c ++ placeRel p _ ps = _
      simp only [List.map_cons, interleave, h3, List.append_assoc]

/-- C9: the merge only inserts characters: the merged line interleaves a
partition of the original lyric (in order, nothing deleted, replaced, or
reordered) with the bracketed chord tokens in their original left-to-right
order, so deleting the inserted bracketed substrings recovers the lyric. -/
theorem spec_C9 (c l : String) :
    ∃ segs : List (List Char),
      segs.length = (chord_positions c).length + 1 ∧
      segs.flatten = l.data ∧
      (merge_chords_and_lyrics c l).data
        = interleave segs ((chord_positions c).map (fun pc => bracketChars pc.2)) := by
  obtain ⟨segs, h1, h2, h3⟩ := placeRel_interleave (chord_positions c) 0 l.data
  refine ⟨segs, h1, h2, ?_⟩
  rw [merge_eq_placeRel]
  exact h3

/-! ### The standalone formatter -/

theorem splitRunsL_flatten_aux (n : Nat) :
    ∀ cs : List Char, cs.length ≤ n → (splitRunsL cs).flatten = cs := by
  induction n with
  | zero =>
    intro cs hle
    have : cs = [] := List.length_eq_zero.mp (Nat.le_zero.mp hle)
    subst this
    rfl
  | succ n ih =>
    intro cs hle
    cases cs with
    | nil => rfl
    | cons c rest =>
      rw [splitRunsL_eq]
      dsimp only
      by_cases hsp : isSpaceChar c = true
      · rw [if_pos hsp, List.flatten_cons]
        have hd := (List.dropWhile_sublist (l := rest) isSpaceChar).length_le
        rw [ih _ (by simp only [List.length_cons] at hle; omega)]
        rw [List.cons_append, List.takeWhile_append_dropWhile]
      · rw [if_neg hsp, List.flatten_cons]
        have hd := (List.dropWhile_sublist (l := rest) (fun x => !isSpaceChar x)).length_le
        rw [ih _ (by simp only [List.length_cons] at hle; omega)]
        rw [List.cons_append, List.takeWhile_append_dropWhile]

/-- The runs of a line re-concatenate to the line: the scan loses no
character. -/
theorem splitRunsL_flatten (cs : List Char) : (splitRunsL cs).flatten = cs :=
  splitRunsL_flatten_aux cs.length cs (Nat.le_refl _)

/-- A pure-whitespace run is never a chord token (it strips to nothing). -/
theorem is_chord_tokenL_of_space {r : List Char} (h : pyIsSpaceL r = true) :
    is_chord_tokenL r = false := by
  unfold pyIsSpaceL at h
  rw [Bool.and_eq_true] at h
  obtain ⟨-, hall⟩ := h
  rw [List.all_eq_true] at hall
  have hstrip : stripL r = [] := by
    unfold stripL
    rw [List.dropWhile_eq_nil_iff.mpr (fun a ha => hall a ha)]
    rfl
  unfold is_chord_tokenL
  rw [hstrip]
  split
  · rfl
  · rfl

/-- The loop body of the formatter in collapsed form: chords are bracketed,
every other run — whitespace, separator, annotation, or free text via the
fallback branch — is kept unchanged. -/
theorem transformRunL_collapse (r : List Char) :
    transformRunL r = if is_chord_tokenL r = true then bracketChars r else r := by
  unfold transformRunL
  by_cases hs : pyIsSpaceL r = true
  · rw [if_pos hs, is_chord_tokenL_of_space hs]
    simp
  · rw [if_neg hs]
    by_cases hc : is_chord_tokenL r = true
    · rw [if_pos hc, if_pos hc]
    · rw [if_neg hc, if_neg hc]
      exact ite_self r

/-- C6: the formatter decomposes the line into maximal whitespace runs and
maximal tokens without losing a character, re-emits every run that is not a
chord token (whitespace runs, bar separators, parenthetical annotations, or
any other token) character-for-character in original order, and replaces
exactly the chord tokens by their bracketed forms; in particular
`| B | A | E | E | x2` becomes `| [B] | [A] | [E] | [E] | x2`. -/
theorem spec_C6 (line : String) :
    (splitRunsL line.data).flatten = line.data ∧
      format_chord_only_line line
        = String.mk ((splitRunsL line.data).map transformRunL).flatten ∧
      (∀ r ∈ splitRunsL line.data, is_chord_tokenL r = false → transformRunL r = r) ∧
      (∀ r ∈ splitRunsL line.data, is_chord_tokenL r = true →
        transformRunL r = '[' :: r ++ [']']) ∧
      format_chord_only_line "| B | A | E | E | x2" = "| [B] | [A] | [E] | [E] | x2" := by
  refine ⟨splitRunsL_flatten _, rfl, ?_, ?_, by decide⟩
  · intro r _ hc
    rw [transformRunL_collapse, hc]
    simp
  · intro r _ hc
    rw [transformRunL_collapse, if_pos hc]
    rfl

/-- C6 witness: on the concrete chord-only line `| B | A | E | E | x2`, the
non-chord run `x2` is re-emitted unchanged and the chord run `B` is
bracketed. -/
theorem spec_C6_witness :
    transformRunL ['x', '2'] = ['x', '2'] ∧ transformRunL ['B'] = ['[', 'B', ']'] :=
  ⟨(spec_C6 "| B | A | E | E | x2").2.2.1 ['x', '2'] (by decide) (by decide),
    (spec_C6 "| B | A | E | E | x2").2.2.2.1 ['B'] (by decide) (by decide)⟩

/-- C10: the formatter is total on arbitrary lines: its output is the
concatenation of the line's runs where only chord-shaped tokens change
(bracketed), and a non-whitespace token that is neither a chord, a bar
separator, nor an annotation is copied unchanged by the fallback branch. -/
theorem spec_C10 (line : String) :
    format_chord_only_line line
      = String.mk ((splitRunsL line.data).map
          (fun r => if is_chord_tokenL r = true then bracketChars r else r)).flatten ∧
      ∀ r : List Char, pyIsSpaceL r = false → is_chord_tokenL r = false →
        is_paren_annotL r = false → is_bar_separatorL r = false → transformRunL r = r := by
  constructor
  · unfold format_chord_only_line
    congr 2
    exact List.map_congr_left (fun r _ => transformRunL_collapse r)
  · intro r h1 h2 h3 h4
    unfold transformRunL
    rw [h1, h2, h3, h4]
    simp

/-- C10 witness: the free-text token `x2` (not whitespace, chord, annotation,
or separator) passes through the fallback branch unchanged. -/
theorem spec_C10_witness : transformRunL ['x', '2'] = ['x', '2'] :=
  (spec_C10 "x2").2 ['x', '2'] (by decide) (by decide) (by decide) (by decide)

/-! ### The pass controller -/

/-- C2: the pass controller emits a non-chord-only line unchanged and
advances by one; it emits the merge of the current and next lines, consuming
both, exactly when the current line is chord-only, a next line exists, the
next line strips to non-empty text, and the next line is not a bracketed
header; in every other chord-only case (no next line, blank next line, or
bracketed-header next line) it emits the standalone formatting of the
current line and advances by one. -/
theorem spec_C2 (cur next : String) (rest rest2 : List String) :
    (is_chord_only_line cur = false →
        process_lines (cur :: rest) = cur :: process_lines rest) ∧
      (is_chord_only_line cur = true →
        process_lines [cur] = [format_chord_only_line cur]) ∧
      (is_chord_only_line cur = true → (stripL next.data).isEmpty = false →
        is_header_like next = false →
        process_lines (cur :: next :: rest2)
          = merge_chords_and_lyrics cur next :: process_lines rest2) ∧
      (is_chord_only_line cur = true →
        ((stripL next.data).isEmpty = true ∨ is_header_like next = true) →
        process_lines (cur :: next :: rest2)
          = format_chord_only_line cur :: process_lines (next :: rest2)) := by
  refine ⟨?_, ?_, ?_, ?_⟩
  · intro h
    cases rest with
    | nil => simp [process_lines, h]
    | cons a as => simp [process_lines, h]
  · intro h
    simp [process_lines, h]
  · intro h1 h2 h3
    simp [process_lines, h1, h2, h3]
  · intro h1 h2
    rcases h2 with h2 | h2 <;> simp [process_lines, h1, h2]

/-- C2 witness: the chord-only line `Em` followed by the lyric `hello` is
merged and the lyric consumed. -/
theorem spec_C2_witness :
    process_lines ["Em", "hello"] = [merge_chords_and_lyrics "Em" "hello"] :=
  (spec_C2 "Em" "hello" [] []).2.2.1 (by decide) (by decide) (by decide)

/-- C8: the pass is total and deterministic: every finite input sequence has
a defined output sequence, and equal inputs give equal outputs.  (In this
embedding `process_lines` is a total function, so no input can raise an
error; the statement records exactly the totality and determinism the claim
asserts.) -/
theorem spec_C8 (lines : List String) :
    (∃ out, process_lines lines = out) ∧
      ∀ lines2, lines2 = lines → process_lines lines2 = process_lines lines :=
  ⟨⟨process_lines lines, rfl⟩, fun _ h => by rw [h]⟩

/-- C8 witness: determinism applied at a concrete input. -/
theorem spec_C8_witness : process_lines ["C"] = process_lines ["C"] :=
  (spec_C8 ["C"]).2 ["C"] rfl

end ChordConv
